import Mathlib

/-
Verification development for the go-chaintracks repository: a shallow
embedding in Lean 4 of the header-chain data model, the work arithmetic,
the header-store loader, the HTTP query handlers and the remote client,
together with theorems settling the specification claims about them.
-/

namespace ChainTracks

/-- Byte sequences (file contents, serialized headers) are modelled as lists
of naturals; real data keeps every entry below 256. -/
abbrev Bytes := List Nat

/-- A 32-byte block hash (chainhash.Hash), modelled as a list of bytes. -/
abbrev Hash := List Nat

/-- Error values mirroring the sentinel errors of
src/pkg/chaintracks/errors.go that the modelled operations return. -/
inductive ChainErr where
  | headerNotFound
  | duplicateHeader
  | invalidFileSize
  | serverRequestFailed
  | serverReturnedError
  deriving DecidableEq

/-- Little-endian 4-byte rendering of a 32-bit value, as used by the 80-byte
header layout of §6 of the spec. -/
def u32le (x : Nat) : Bytes :=
  [x % 256, x / 256 % 256, x / 256 ^ 2 % 256, x / 256 ^ 3 % 256]

/-- Little-endian byte-sequence decoding. -/
def leNat (bs : Bytes) : Nat :=
  bs.foldr (fun b acc => b + 256 * acc) 0

/-- In-memory block header: the six wire fields of the 80-byte layout plus
the derived fields (hash, height) materialized on insertion, mirroring
chaintracks.BlockHeader. -/
structure BlockHeader where
  version : Nat
  prevHash : Hash
  merkleRoot : Hash
  time : Nat
  bits : Nat
  nonce : Nat
  height : Nat
  hash : Hash
  deriving DecidableEq

/-- The 80-byte wire serialization of a header:
version(4) | prev_hash(32) | merkle_root(32) | time(4) | bits(4) | nonce(4),
all u32 fields little-endian (spec §6, block.Header.Bytes()). -/
def BlockHeader.bytes (h : BlockHeader) : Bytes :=
  u32le h.version ++ h.prevHash ++ h.merkleRoot ++
    u32le h.time ++ u32le h.bits ++ u32le h.nonce

/-- Well-formedness of a header value: its two hash fields hold exactly
32 bytes, as [32]byte does in Go. -/
def BlockHeader.WF (h : BlockHeader) : Prop :=
  h.prevHash.length = 32 ∧ h.merkleRoot.length = 32

theorem u32le_length (x : Nat) : (u32le x).length = 4 := rfl

theorem BlockHeader.bytes_length (h : BlockHeader) (hwf : h.WF) :
    h.bytes.length = 80 := by
  simp [BlockHeader.bytes, u32le, hwf.1, hwf.2]

/-- Modelled from the spec: `compact_to_target(bits)` / CompactToBig (§4.2).
The implementation is absent from src (only src/chainmanager/chainwork_fuzz_test.go
exercises it). The high byte of the compact encoding is an exponent, the low
23 bits are the mantissa, bit 0x00800000 is a sign flag; when the exponent is
at most 3 the mantissa is shifted right, otherwise left, by 8 bits per
exponent step. -/
def CompactToBig (compact : Nat) : Int :=
  let mantissa := compact % 0x800000
  let exponent := compact / 0x1000000
  let magnitude : Nat :=
    if exponent ≤ 3 then mantissa >>> (8 * (3 - exponent))
    else mantissa <<< (8 * (exponent - 3))
  if compact / 0x800000 % 2 = 1 then -(magnitude : Int) else (magnitude : Int)

/-- C6: for every 32-bit compact encoding, CompactToBig yields (totally,
hence without panic) the 23-bit mantissa shifted by the high-byte exponent
(right by 8·(3−e) when e ≤ 3, left by 8·(e−3) otherwise), is non-positive
exactly on a set sign bit (bit 0x00800000), and is zero on a zero mantissa. -/
theorem compactToBig_spec (c : Nat) (hc : c < 2 ^ 32) :
    (CompactToBig c).natAbs =
      (if c / 2 ^ 24 ≤ 3 then c % 2 ^ 23 / 2 ^ (8 * (3 - c / 2 ^ 24))
       else c % 2 ^ 23 * 2 ^ (8 * (c / 2 ^ 24 - 3))) ∧
    (c.testBit 23 = true → CompactToBig c ≤ 0) ∧
    (c.testBit 23 = false → 0 ≤ CompactToBig c) ∧
    (c % 2 ^ 23 = 0 → CompactToBig c = 0) := by
  have hbit : c.testBit 23 = decide (c / 2 ^ 23 % 2 = 1) := Nat.testBit_to_div_mod
  have hmag : (if c / 0x1000000 ≤ 3
        then (c % 0x800000) >>> (8 * (3 - c / 0x1000000))
        else (c % 0x800000) <<< (8 * (c / 0x1000000 - 3))) =
      (if c / 2 ^ 24 ≤ 3 then c % 2 ^ 23 / 2 ^ (8 * (3 - c / 2 ^ 24))
       else c % 2 ^ 23 * 2 ^ (8 * (c / 2 ^ 24 - 3))) := by
    rw [Nat.shiftRight_eq_div_pow, Nat.shiftLeft_eq]
    norm_num
  refine ⟨?_, ?_, ?_, ?_⟩
  · rw [CompactToBig, ← hmag]
    by_cases hs : c / 0x800000 % 2 = 1
    · simp [hs]
      split <;> simp
    · simp [hs]
      split <;> simp
  · intro hs
    rw [hbit] at hs
    simp only [decide_eq_true_eq] at hs
    rw [CompactToBig]
    simp only [show (0x800000 : Nat) = 2 ^ 23 by norm_num, hs, if_pos rfl]
    exact neg_nonpos_of_nonneg (Int.ofNat_nonneg _)
  · intro hs
    rw [hbit] at hs
    simp only [decide_eq_false_iff_not] at hs
    rw [CompactToBig]
    simp only [show (0x800000 : Nat) = 2 ^ 23 by norm_num, if_neg hs]
    exact Int.ofNat_nonneg _
  · intro hm
    rw [CompactToBig]
    simp only [show (0x800000 : Nat) = 2 ^ 23 by norm_num, hm]
    split <;> simp

/-- Witness for C6 at the mainnet genesis bits 0x1d00ffff. -/
theorem compactToBig_spec_witness :
    (CompactToBig 0x1d00ffff).natAbs =
      (if (0x1d00ffff : Nat) / 2 ^ 24 ≤ 3
       then (0x1d00ffff : Nat) % 2 ^ 23 / 2 ^ (8 * (3 - 0x1d00ffff / 2 ^ 24))
       else (0x1d00ffff : Nat) % 2 ^ 23 * 2 ^ (8 * (0x1d00ffff / 2 ^ 24 - 3))) :=
  (compactToBig_spec 0x1d00ffff (by norm_num)).1

/-- Hexadecimal digit value of a character, covering 0-9, a-f and A-F as
big.Int.SetString with base 16 does. -/
def hexDigitVal (c : Char) : Option Nat :=
  if '0' ≤ c ∧ c ≤ '9' then some (c.toNat - '0'.toNat)
  else if 'a' ≤ c ∧ c ≤ 'f' then some (c.toNat - 'a'.toNat + 10)
  else if 'A' ≤ c ∧ c ≤ 'F' then some (c.toNat - 'A'.toNat + 10)
  else none

/-- Left-to-right accumulation of hexadecimal digits; fails on the first
non-digit character. -/
def parseHexAcc : List Char → Nat → Option Nat
  | [], acc => some acc
  | c :: rest, acc =>
    match hexDigitVal c with
    | none => none
    | some d => parseHexAcc rest (acc * 16 + d)

/-- Modelled from the spec: ChainWorkFromHex parses the hexadecimal rendering
of a chain-work value into a non-negative integer, failing on an empty or
non-hexadecimal string. The implementation is absent from src (only
src/chainmanager/chainwork_fuzz_test.go exercises it). -/
def ChainWorkFromHex (s : List Char) : Option Nat :=
  if s = [] then none else parseHexAcc s 0

/-- Lower-case hexadecimal digit character for a value below 16. -/
def hexChar (d : Nat) : Char :=
  if d < 10 then Char.ofNat ('0'.toNat + d) else Char.ofNat ('a'.toNat + (d - 10))

/-- Hexadecimal digits of a positive value, most significant first; empty
for zero. -/
def toHexDigits (x : Nat) : List Char :=
  if h : x = 0 then [] else toHexDigits (x / 16) ++ [hexChar (x % 16)]
termination_by x
decreasing_by exact Nat.div_lt_self (Nat.pos_of_ne_zero h) (by norm_num)

/-- The hexadecimal rendering of a non-negative integer as big.Int.Text(16)
produces it: lower-case, no leading zeros, "0" for zero. -/
def chainWorkToHex (x : Nat) : List Char :=
  if x = 0 then ['0'] else toHexDigits x

theorem hexDigitVal_hexChar : ∀ d, d < 16 → hexDigitVal (hexChar d) = some d := by
  decide

theorem parseHexAcc_append (l1 l2 : List Char) (acc : Nat) :
    parseHexAcc (l1 ++ l2) acc =
      match parseHexAcc l1 acc with
      | none => none
      | some a => parseHexAcc l2 a := by
  induction l1 generalizing acc with
  | nil => simp [parseHexAcc]
  | cons c rest ih =>
    simp only [List.cons_append, parseHexAcc]
    cases hexDigitVal c with
    | none => simp
    | some d => simp [ih]

theorem parseHexAcc_toHexDigits (x : Nat) :
    ∀ acc, parseHexAcc (toHexDigits x) acc =
      some (acc * 16 ^ (toHexDigits x).length + x) := by
  induction x using Nat.strong_induction_on with
  | _ x ih =>
    intro acc
    by_cases hx : x = 0
    · subst hx
      rw [toHexDigits]
      simp [parseHexAcc]
    · rw [toHexDigits]
      simp only [hx, dite_false]
      rw [parseHexAcc_append,
        ih (x / 16) (Nat.div_lt_self (Nat.pos_of_ne_zero hx) (by norm_num)) acc]
      have hd : hexDigitVal (hexChar (x % 16)) = some (x % 16) :=
        hexDigitVal_hexChar _ (Nat.mod_lt _ (by norm_num))
      simp only [parseHexAcc, hd, List.length_append, List.length_singleton]
      have hx16 : x / 16 * 16 + x % 16 = x := Nat.div_add_mod' x 16
      congr 1
      calc (acc * 16 ^ (toHexDigits (x / 16)).length + x / 16) * 16 + x % 16
          = acc * (16 ^ (toHexDigits (x / 16)).length * 16) +
              (x / 16 * 16 + x % 16) := by ring
        _ = acc * 16 ^ ((toHexDigits (x / 16)).length + 1) + x := by
            rw [hx16, pow_succ]

/-- C7: parsing the hexadecimal rendering of any non-negative integer with
ChainWorkFromHex yields the integer back (the round-trip identity); the
parse succeeds (returns a value) on exactly the inputs on which it reports
no error, the two being one and the same in this embedding. -/
theorem chainWorkFromHex_roundTrip (x : Nat) :
    ChainWorkFromHex (chainWorkToHex x) = some x := by
  by_cases hx : x = 0
  · subst hx
    decide
  · rw [chainWorkToHex]
    simp only [hx, if_false]
    have hne : toHexDigits x ≠ [] := by
      rw [toHexDigits]
      simp [hx]
    rw [ChainWorkFromHex, if_neg hne, parseHexAcc_toHexDigits x 0]
    simp

/-- Association-list view of a Go map from hashes to headers, as ChainManager
keeps `byHash`. -/
def lookupHash : List (Hash × BlockHeader) → Hash → Option BlockHeader
  | [], _ => none
  | (k, v) :: rest, h => if k = h then some v else lookupHash rest h

/-- The ChainManager index state the query surface reads: the dense by-height
sequence of main-chain hashes, the by-hash map, and the tip pointer. -/
structure ChainState where
  byHeight : List Hash
  byHash : List (Hash × BlockHeader)
  tip : Option BlockHeader

/-- GetTip returns the tip pointer; nil before the first insertion
(TestChainManagerGetTip). -/
def ChainState.GetTip (s : ChainState) : Option BlockHeader :=
  s.tip

/-- GetHeight returns the tip height, or 0 when the tip is unset
(TestChainManagerGetHeight). -/
def ChainState.GetHeight (s : ChainState) : Nat :=
  match s.tip with
  | none => 0
  | some t => t.height

/-- Modelled from the spec: `get_header_by_height` (§4.5) fails with
HEADER_NOT_FOUND when the height is beyond `by_height` or when the
main-chain hash at that height is missing from `by_hash`; the ChainManager
implementation is absent from src, and this is the behavior its test
TestChainManagerGetHeaderByHeight pins. -/
def ChainState.GetHeaderByHeight (s : ChainState) (height : Nat) :
    Except ChainErr BlockHeader :=
  match s.byHeight.get? height with
  | none => .error .headerNotFound
  | some h =>
    match lookupHash s.byHash h with
    | none => .error .headerNotFound
    | some bh => .ok bh

/-- The client-side GetHeight of src/client/client.go: 0 when GetTip yields
nothing, the tip height otherwise. -/
def clientGetHeight (tip : Option BlockHeader) : Nat :=
  match tip with
  | none => 0
  | some t => t.height

/-- C8: with no tip set, GetTip returns nil and GetHeight returns 0 (on the
manager and through the remote client); once a tip exists, GetHeight returns
exactly that tip's height. -/
theorem getTip_getHeight_spec (s : ChainState) :
    (s.tip = none →
      s.GetTip = none ∧ s.GetHeight = 0 ∧ clientGetHeight s.GetTip = 0) ∧
    (∀ t, s.tip = some t →
      s.GetTip = some t ∧ s.GetHeight = t.height ∧
        clientGetHeight s.GetTip = t.height) := by
  constructor
  · intro h
    simp [ChainState.GetTip, ChainState.GetHeight, clientGetHeight, h]
  · intro t h
    simp [ChainState.GetTip, ChainState.GetHeight, clientGetHeight, h]

/-- A concrete well-formed genesis-like header used by closed witnesses. -/
def hdrA : BlockHeader :=
  { version := 1, prevHash := List.replicate 32 0,
    merkleRoot := 7 :: List.replicate 31 0, time := 1231006505,
    bits := 0x1d00ffff, nonce := 2083236893, height := 0,
    hash := 1 :: List.replicate 31 0 }

/-- A concrete well-formed height-1 header used by closed witnesses. -/
def hdrB : BlockHeader :=
  { version := 1, prevHash := 1 :: List.replicate 31 0,
    merkleRoot := 9 :: List.replicate 31 0, time := 1231469665,
    bits := 0x1d00ffff, nonce := 2573394689, height := 1,
    hash := 2 :: List.replicate 31 0 }

/-- A concrete two-header chain state used by closed witnesses. -/
def stateAB : ChainState :=
  { byHeight := [hdrA.hash, hdrB.hash],
    byHash := [(hdrA.hash, hdrA), (hdrB.hash, hdrB)],
    tip := some hdrB }

/-- The empty chain state used by closed witnesses. -/
def stateEmpty : ChainState :=
  { byHeight := [], byHash := [], tip := none }

/-- Witness for C8: the empty state and the two-header state. -/
theorem getTip_getHeight_spec_witness :
    (stateEmpty.GetTip = none ∧ stateEmpty.GetHeight = 0 ∧
      clientGetHeight stateEmpty.GetTip = 0) ∧
    (stateAB.GetTip = some hdrB ∧ stateAB.GetHeight = hdrB.height ∧
      clientGetHeight stateAB.GetTip = hdrB.height) :=
  ⟨(getTip_getHeight_spec stateEmpty).1 rfl,
   (getTip_getHeight_spec stateAB).2 hdrB rfl⟩

/-- The Cache-Control value the HTTP handlers compute: the Go code compares
the requested height against the uint32 difference `tip - 100`, which wraps
modulo 2^32 when the tip height is below 100
(src/routes/fiber/routes.go handleGetHeaderByHeight and the server's
HandleGetHeaderByHeight). -/
def cacheHeaderValue (tipHeight height : Nat) : String :=
  if height < (tipHeight + 2 ^ 32 - 100) % 2 ^ 32 then "public, max-age=3600"
  else "no-cache"

/-- The observable outcome of a JSON endpoint: HTTP status code, the `status`
field of the response body, and the Cache-Control header. -/
structure HttpResponse where
  statusCode : Nat
  bodyStatus : String
  cacheControl : String
  deriving DecidableEq

/-- HandleGetHeaderByHeight of the API server: chooses the cache header from
the tip height, then serves the header at the requested (already parsed,
in-range-of-uint32) height, or 404 with an error body when the lookup
fails. -/
def HandleGetHeaderByHeight (s : ChainState) (height : Nat) : HttpResponse :=
  let tip := s.GetHeight
  let cc := cacheHeaderValue tip height
  match s.GetHeaderByHeight height with
  | .error _ => { statusCode := 404, bodyStatus := "error", cacheControl := cc }
  | .ok _ => { statusCode := 200, bodyStatus := "success", cacheControl := cc }

/-- C2 (code bug): with a single header at height 0 the tip height is 0 < 100,
yet the handler serves the cold-cache header `public, max-age=3600` for the
request height 5, because the uint32 subtraction `tip - 100` wraps to
4294967196; the claim (and spec §9) requires `no-cache` whenever tip < 100. -/
theorem handleGetHeaderByHeight_lowTip_cache_bug :
    (HandleGetHeaderByHeight
        { byHeight := [hdrA.hash], byHash := [(hdrA.hash, hdrA)],
          tip := some hdrA } 5).cacheControl = "public, max-age=3600" ∧
    (0 + 2 ^ 32 - 100) % 2 ^ 32 = 4294967196 := by
  constructor
  · rfl
  · norm_num

/-- C3: whenever the by-height sequence is dense up to the tip (its length is
tip height + 1) and the requested height exceeds the tip height, the lookup
misses and the handler answers 404 with a body whose status field is
"error". -/
theorem handleGetHeaderByHeight_miss_404 (s : ChainState) (h : Nat)
    (hlen : s.byHeight.length = s.GetHeight + 1) (hgt : s.GetHeight < h) :
    (HandleGetHeaderByHeight s h).statusCode = 404 ∧
    (HandleGetHeaderByHeight s h).bodyStatus = "error" := by
  have hnone : s.byHeight.get? h = none := by
    rw [List.get?_eq_none]
    omega
  rw [HandleGetHeaderByHeight, ChainState.GetHeaderByHeight, hnone]
  exact ⟨rfl, rfl⟩

/-- Witness for C3: the two-header chain (tip height 1) queried at height 5. -/
theorem handleGetHeaderByHeight_miss_404_witness :
    (HandleGetHeaderByHeight stateAB 5).statusCode = 404 ∧
    (HandleGetHeaderByHeight stateAB 5).bodyStatus = "error" :=
  handleGetHeaderByHeight_miss_404 stateAB 5 (by decide) (by decide)

/-- The header-collecting loop of HandleGetHeaders: starting at the requested
height it looks up consecutive heights (uint32 addition, hence modulo 2^32),
stopping at the first miss, and concatenates the 80-byte serializations. -/
def collectHeaders (s : ChainState) : Nat → Nat → Bytes
  | _, 0 => []
  | h, k + 1 =>
    match s.GetHeaderByHeight (h % 2 ^ 32) with
    | .error _ => []
    | .ok bh => bh.bytes ++ collectHeaders s (h + 1) k

/-- The observable outcome of the /headers endpoint: Content-Type,
Cache-Control and the raw body bytes. -/
structure HeadersResponse where
  contentType : String
  cacheControl : String
  body : Bytes
  deriving DecidableEq

/-- HandleGetHeaders of the API server, after successful parsing of the
height and count query parameters: collects consecutive headers and sends
them as application/octet-stream. -/
def HandleGetHeaders (s : ChainState) (height count : Nat) : HeadersResponse :=
  { contentType := "application/octet-stream",
    cacheControl := cacheHeaderValue s.GetHeight height,
    body := collectHeaders s height count }

theorem collectHeaders_all_ok (s : ChainState) :
    ∀ (k h : Nat) (f : Nat → BlockHeader),
      (∀ i, i < k → s.GetHeaderByHeight ((h + i) % 2 ^ 32) = .ok (f i)) →
      collectHeaders s h k = ((List.range k).map (fun i => (f i).bytes)).flatten := by
  intro k
  induction k with
  | zero => intro h f _; simp [collectHeaders]
  | succ k ih =>
    intro h f hok
    have h0 : s.GetHeaderByHeight (h % 2 ^ 32) = .ok (f 0) := by
      have := hok 0 (Nat.succ_pos k)
      simpa using this
    have hrest : collectHeaders s (h + 1) k =
        ((List.range k).map (fun i => (f (i + 1)).bytes)).flatten := by
      apply ih (h + 1) (fun i => f (i + 1))
      intro i hi
      have := hok (i + 1) (by omega)
      have harg : h + (i + 1) = h + 1 + i := by omega
      rwa [harg] at this
    rw [collectHeaders, h0, hrest, List.range_succ_eq_map]
    simp [List.map_map, Function.comp_def]

theorem join_bytes_length (f : Nat → BlockHeader) :
    ∀ l : List Nat, (∀ i ∈ l, (f i).WF) →
      ((l.map (fun i => (f i).bytes)).flatten).length = 80 * l.length := by
  intro l
  induction l with
  | nil => intro _; simp
  | cons a t ih =>
    intro hwf
    have ha : (f a).bytes.length = 80 :=
      BlockHeader.bytes_length _ (hwf a (List.mem_cons_self a t))
    have ht := ih (fun i hi => hwf i (List.mem_cons_of_mem a hi))
    simp [ha, ht, Nat.mul_succ, Nat.add_comm]

/-- C4: when headers exist at every requested height h .. h+n−1 (uint32
addition), the /headers response body is exactly the concatenation, in
height order, of the n 80-byte serializations — 80·n bytes — served as
application/octet-stream. -/
theorem handleGetHeaders_full_range (s : ChainState) (height count : Nat)
    (f : Nat → BlockHeader)
    (hok : ∀ i, i < count →
      s.GetHeaderByHeight ((height + i) % 2 ^ 32) = .ok (f i))
    (hwf : ∀ i, i < count → (f i).WF) :
    (HandleGetHeaders s height count).body =
      ((List.range count).map (fun i => (f i).bytes)).flatten ∧
    (HandleGetHeaders s height count).body.length = 80 * count ∧
    (HandleGetHeaders s height count).contentType =
      "application/octet-stream" := by
  have hbody : (HandleGetHeaders s height count).body =
      ((List.range count).map (fun i => (f i).bytes)).flatten :=
    collectHeaders_all_ok s count height f hok
  refine ⟨hbody, ?_, rfl⟩
  rw [hbody, join_bytes_length f (List.range count)
    (fun i hi => hwf i (List.mem_range.mp hi))]
  simp

/-- Witness for C4: both headers of the two-header chain, requested as
height=0, count=2, give a 160-byte octet-stream body. -/
theorem handleGetHeaders_full_range_witness :
    (HandleGetHeaders stateAB 0 2).body =
      ((List.range 2).map
        (fun i => ((fun j => if j = 0 then hdrA else hdrB) i).bytes)).flatten ∧
    (HandleGetHeaders stateAB 0 2).body.length = 80 * 2 ∧
    (HandleGetHeaders stateAB 0 2).contentType = "application/octet-stream" :=
  handleGetHeaders_full_range stateAB 0 2 (fun j => if j = 0 then hdrA else hdrB)
    (by intro i hi; interval_cases i <;> rfl)
    (by intro i hi; interval_cases i <;> exact ⟨rfl, rfl⟩)

/-- The fields of one 80-byte chunk decoded into a header; the derived
fields (height, hash) are set later at insertion time and are left at their
defaults here, as block.NewHeaderFromBytes leaves them. -/
def parseHeader80 (chunk : Bytes) : BlockHeader :=
  { version := leNat (chunk.take 4),
    prevHash := (chunk.drop 4).take 32,
    merkleRoot := (chunk.drop 36).take 32,
    time := leNat ((chunk.drop 68).take 4),
    bits := leNat ((chunk.drop 72).take 4),
    nonce := leNat ((chunk.drop 76).take 4),
    height := 0, hash := [] }

/-- Splits a byte sequence into consecutive 80-byte chunks (a short final
chunk when the length is not a multiple of 80). -/
def chunks80 (l : Bytes) : List Bytes :=
  if h : l = [] then [] else l.take 80 :: chunks80 (l.drop 80)
termination_by l.length
decreasing_by
  simp only [List.length_drop]
  have : 0 < l.length := List.length_pos.mpr h
  omega

/-- Modelled from the spec: loadHeadersFromFile reads a bulk header file
fully, rejects any length that is not a multiple of 80 with
INVALID_FILE_SIZE (returning no headers), and otherwise decodes each
80-byte chunk. The implementation is absent from src (only
src/chainmanager/chainwork_fuzz_test.go and the tests of
src/pkg/chaintracks exercise it). -/
def loadHeadersFromFile (data : Bytes) : Except ChainErr (List BlockHeader) :=
  if data.length % 80 ≠ 0 then .error .invalidFileSize
  else .ok ((chunks80 data).map parseHeader80)

theorem chunks80_length (data : Bytes) (hd : data.length % 80 = 0) :
    (chunks80 data).length = data.length / 80 := by
  generalize hn : data.length = n
  rw [hn] at hd
  induction n using Nat.strong_induction_on generalizing data with
  | _ n ih =>
    rw [chunks80]
    by_cases hz : data = []
    · subst hz
      simp at hn
      simp [← hn]
    · simp only [hz, dite_false, List.length_cons]
      have hpos : 0 < n := by
        rw [← hn]
        exact List.length_pos.mpr hz
      have hlen : (data.drop 80).length = n - 80 := by
        simp [List.length_drop, hn]
      have hge : 80 ≤ n := by omega
      have hrec := ih (n - 80) (by omega) (data.drop 80) (by omega) hlen
      rw [hrec]
      omega

/-- C5: loadHeadersFromFile returns the INVALID_FILE_SIZE error (and no
headers) exactly on files whose byte length is not a multiple of 80, and on
success over a file of length L it returns exactly L / 80 parsed headers;
every multiple of 80, including a short tail file, is accepted. -/
theorem loadHeadersFromFile_spec (data : Bytes) :
    (data.length % 80 ≠ 0 → loadHeadersFromFile data = .error .invalidFileSize) ∧
    (∀ hs, loadHeadersFromFile data = .ok hs → hs.length = data.length / 80) := by
  constructor
  · intro hbad
    simp [loadHeadersFromFile, hbad]
  · intro hs hok
    rw [loadHeadersFromFile] at hok
    by_cases hmod : data.length % 80 = 0
    · simp only [hmod, ne_eq, not_true_eq_false, if_false] at hok
      cases hok
      rw [List.length_map]
      exact chunks80_length data hmod
    · simp [hmod] at hok

/-- Witness for C5: a 79-byte file is rejected with INVALID_FILE_SIZE, and a
160-byte file yields exactly two headers. -/
theorem loadHeadersFromFile_spec_witness :
    loadHeadersFromFile (List.replicate 79 0) = .error .invalidFileSize ∧
    ∀ hs, loadHeadersFromFile (List.replicate 160 0) = .ok hs →
      hs.length = 160 / 80 :=
  ⟨(loadHeadersFromFile_spec (List.replicate 79 0)).1 (by decide),
   by
    intro hs hok
    have := (loadHeadersFromFile_spec (List.replicate 160 0)).2 hs hok
    simpa using this⟩

/-- What the remote client observes of one server response: the HTTP status
code, the `status` field of the JSON body, and the decoded `value`. -/
structure ServerReply where
  statusCode : Nat
  bodyStatus : String
  value : Option BlockHeader

/-- fetchHeader of src/client/client.go: a non-200 status is
SERVER_REQUEST_FAILED; a 200 whose body status is not "success" or whose
value is null is HEADER_NOT_FOUND; otherwise the decoded header. -/
def fetchHeader (reply : ServerReply) : Except ChainErr BlockHeader :=
  if reply.statusCode ≠ 200 then .error .serverRequestFailed
  else if reply.bodyStatus ≠ "success" then .error .headerNotFound
  else
    match reply.value with
    | none => .error .headerNotFound
    | some bh => .ok bh

/-- IsValidRootForHeight of src/client/client.go: fetches the header at the
height and compares its merkle root against the candidate; a fetch error is
returned together with the value false (the Go function returns the pair
(false, err)). -/
def IsValidRootForHeight (fetch : Nat → Except ChainErr BlockHeader)
    (root : Hash) (height : Nat) : Bool × Option ChainErr :=
  match fetch height with
  | .error e => (false, some e)
  | .ok h => (decide (h.merkleRoot = root), none)

/-- C9: when the fetch of the header at the given height succeeds,
IsValidRootForHeight returns no error and true exactly when that header's
merkle root equals the candidate root; when no header exists at that height
(the fetch reports HEADER_NOT_FOUND), the error is propagated together with
the value false. -/
theorem isValidRootForHeight_spec
    (fetch : Nat → Except ChainErr BlockHeader) (root : Hash) (height : Nat) :
    (∀ bh, fetch height = .ok bh →
      ((IsValidRootForHeight fetch root height).1 = true ↔
        bh.merkleRoot = root) ∧
      (IsValidRootForHeight fetch root height).2 = none) ∧
    (fetch height = .error .headerNotFound →
      IsValidRootForHeight fetch root height =
        (false, some ChainErr.headerNotFound)) := by
  constructor
  · intro bh hok
    rw [IsValidRootForHeight, hok]
    simp
  · intro herr
    rw [IsValidRootForHeight, herr]

/-- Witness for C9: served replies drawn from the two-header chain; height 1
carries hdrB's merkle root, and a missing height propagates
HEADER_NOT_FOUND. -/
theorem isValidRootForHeight_spec_witness :
    ((IsValidRootForHeight
        (fun h => fetchHeader
          { statusCode := 200,
            bodyStatus := if h ≤ 1 then "success" else "error",
            value := if h = 0 then some hdrA
                     else if h = 1 then some hdrB else none })
        hdrB.merkleRoot 1).1 = true ↔ hdrB.merkleRoot = hdrB.merkleRoot) ∧
    IsValidRootForHeight
        (fun h => fetchHeader
          { statusCode := 200,
            bodyStatus := if h ≤ 1 then "success" else "error",
            value := if h = 0 then some hdrA
                     else if h = 1 then some hdrB else none })
        hdrB.merkleRoot 5 =
      (false, some ChainErr.headerNotFound) :=
  ⟨((isValidRootForHeight_spec _ hdrB.merkleRoot 1).1 hdrB rfl).1,
   (isValidRootForHeight_spec _ hdrB.merkleRoot 5).2 rfl⟩

/-- Go map assignment `m[k] = v` over the association-list view: replaces
the entry under an existing key, appends otherwise. -/
def mapInsert : List (Hash × BlockHeader) → Hash → BlockHeader →
    List (Hash × BlockHeader)
  | [], k, v => [(k, v)]
  | (k1, v1) :: rest, k, v =>
    if k1 = k then (k, v) :: rest else (k1, v1) :: mapInsert rest k v

/-- Modelled from the spec and from its test: AddHeader of
pkg/chaintracks.ChainManager stores a header in `byHash` under its hash and
returns no error; its test TestChainManagerAddHeader (case
OverwritesExistingHeaderWithSameHash, src/pkg/chaintracks/chainmanager_test.go)
pins that an existing entry under the same hash is overwritten rather than
rejected. The implementation is absent from src. -/
def AddHeader (byHash : List (Hash × BlockHeader)) (h : BlockHeader) :
    Except ChainErr (List (Hash × BlockHeader)) :=
  .ok (mapInsert byHash h.hash h)

theorem lookupHash_mapInsert_self (m : List (Hash × BlockHeader))
    (k : Hash) (v : BlockHeader) : lookupHash (mapInsert m k v) k = some v := by
  induction m with
  | nil => simp [mapInsert, lookupHash]
  | cons p rest ih =>
    obtain ⟨k1, v1⟩ := p
    by_cases hk : k1 = k
    · simp [mapInsert, hk, lookupHash]
    · simp [mapInsert, hk, lookupHash, ih]

theorem lookupHash_mapInsert_ne (m : List (Hash × BlockHeader))
    (k q : Hash) (v : BlockHeader) (hne : q ≠ k) :
    lookupHash (mapInsert m k v) q = lookupHash m q := by
  have hkq : k ≠ q := Ne.symm hne
  induction m with
  | nil => simp [mapInsert, lookupHash, hkq]
  | cons p rest ih =>
    obtain ⟨k1, v1⟩ := p
    by_cases hk : k1 = k
    · subst hk
      simp [mapInsert, lookupHash, hkq]
    · simp only [mapInsert, hk, if_false, lookupHash]
      by_cases hq : k1 = q
      · simp [hq]
      · simp [hq, ih]

/-- C1 counterexample: inserting a header whose hash is already in `byHash`
(the concrete scenario of TestChainManagerAddHeader) returns success, not a
duplicate error, and the stored header for that hash is replaced by the new
one (height 0 becomes height 999). -/
theorem addHeader_duplicate_overwrites_cex :
    lookupHash [(hdrA.hash, hdrA)] hdrA.hash = some hdrA ∧
    AddHeader [(hdrA.hash, hdrA)] { hdrA with height := 999 } =
      .ok [(hdrA.hash, { hdrA with height := 999 })] ∧
    lookupHash [(hdrA.hash, { hdrA with height := 999 })] hdrA.hash =
      some { hdrA with height := 999 } ∧
    ({ hdrA with height := 999 } : BlockHeader) ≠ hdrA := by
  refine ⟨rfl, rfl, rfl, ?_⟩
  intro h
  have := congrArg BlockHeader.height h
  simp [hdrA] at this

/-- C1 as amended: inserting a header whose hash is already present in
`byHash` returns success — no duplicate error — and replaces the stored
header for that hash with the new one, leaving the entries under every
other hash unchanged. -/
theorem addHeader_duplicate_overwrites (m : List (Hash × BlockHeader))
    (h : BlockHeader) (old : BlockHeader)
    (hdup : lookupHash m h.hash = some old) :
    AddHeader m h = .ok (mapInsert m h.hash h) ∧
    lookupHash (mapInsert m h.hash h) h.hash = some h ∧
    (∀ q, q ≠ h.hash → lookupHash (mapInsert m h.hash h) q = lookupHash m q) := by
  refine ⟨rfl, lookupHash_mapInsert_self m h.hash h, ?_⟩
  intro q hq
  exact lookupHash_mapInsert_ne m h.hash q h hq

/-- Witness for the amended C1: the index holding hdrA, re-inserting under
the same hash at height 999. -/
theorem addHeader_duplicate_overwrites_witness :
    AddHeader [(hdrA.hash, hdrA)] { hdrA with height := 999 } =
      .ok (mapInsert [(hdrA.hash, hdrA)]
        ({ hdrA with height := 999 } : BlockHeader).hash
        { hdrA with height := 999 }) ∧
    lookupHash (mapInsert [(hdrA.hash, hdrA)]
        ({ hdrA with height := 999 } : BlockHeader).hash
        { hdrA with height := 999 })
      ({ hdrA with height := 999 } : BlockHeader).hash =
      some { hdrA with height := 999 } ∧
    (∀ q, q ≠ ({ hdrA with height := 999 } : BlockHeader).hash →
      lookupHash (mapInsert [(hdrA.hash, hdrA)]
          ({ hdrA with height := 999 } : BlockHeader).hash
          { hdrA with height := 999 }) q =
        lookupHash [(hdrA.hash, hdrA)] q) :=
  addHeader_duplicate_overwrites [(hdrA.hash, hdrA)]
    { hdrA with height := 999 } hdrA rfl

/-- The characters of the scheme literal "http://". -/
def httpScheme : List Char := ['h', 't', 't', 'p', ':', '/', '/']

/-- The characters of the scheme literal "https://". -/
def httpsScheme : List Char := ['h', 't', 't', 'p', 's', ':', '/', '/']

/-- strings.HasPrefix: the first argument read as a pattern against the
second argument. -/
def beginsWith : List Char → List Char → Bool
  | [], _ => true
  | _ :: _, [] => false
  | p :: ps, c :: cs => p == c && beginsWith ps cs

/-- strings.TrimSuffix(s, "/"): removes the final character exactly when it
is a slash. -/
def trimOneTrailingSlash : List Char → List Char
  | [] => []
  | [c] => if c = '/' then [] else [c]
  | c :: d :: rest => c :: trimOneTrailingSlash (d :: rest)

/-- New of src/client/client.go: prepend "http://" when neither scheme is
present, then trim a single trailing slash. -/
def newBaseURL (s : List Char) : List Char :=
  let s1 := if beginsWith httpScheme s || beginsWith httpsScheme s then s
            else httpScheme ++ s
  trimOneTrailingSlash s1

/-- Number of leading slashes of a character sequence. -/
def leadingSlashes : List Char → Nat
  | [] => 0
  | c :: rest => if c = '/' then leadingSlashes rest + 1 else 0

/-- Number of trailing slashes of a character sequence. -/
def trailingSlashes (l : List Char) : Nat :=
  leadingSlashes l.reverse

theorem beginsWith_append (p t : List Char) : beginsWith p (p ++ t) = true := by
  induction p with
  | nil => rfl
  | cons a p2 ih => simp [beginsWith, ih]

theorem beginsWith_exists (p : List Char) :
    ∀ s, beginsWith p s = true → ∃ t, s = p ++ t := by
  induction p with
  | nil => intro s _; exact ⟨s, rfl⟩
  | cons a p2 ih =>
    intro s hbw
    cases s with
    | nil => simp [beginsWith] at hbw
    | cons b s2 =>
      simp only [beginsWith, Bool.and_eq_true, beq_iff_eq] at hbw
      obtain ⟨t, ht⟩ := ih s2 hbw.2
      exact ⟨t, by simp [hbw.1, ht]⟩

theorem trimOneTrailingSlash_concat (c : Char) :
    ∀ l, trimOneTrailingSlash (l ++ [c]) =
      if c = '/' then l else l ++ [c] := by
  intro l
  induction l with
  | nil => simp [trimOneTrailingSlash]
  | cons a t ih =>
    cases t with
    | nil =>
      simp only [List.nil_append, List.cons_append, trimOneTrailingSlash]
      split <;> simp_all [trimOneTrailingSlash]
    | cons b t2 =>
      simp only [List.cons_append, trimOneTrailingSlash, List.append_eq]
      rw [show (b :: (t2 ++ [c]) : List Char) = (b :: t2) ++ [c] by simp, ih]
      split <;> simp

theorem trimOneTrailingSlash_append (p : List Char) :
    ∀ r, r ≠ [] →
      trimOneTrailingSlash (p ++ r) = p ++ trimOneTrailingSlash r := by
  induction p with
  | nil => intro r _; rfl
  | cons a p2 ih =>
    intro r hr
    have hne : p2 ++ r ≠ [] := by simp [hr]
    obtain ⟨b, t, hbt⟩ := List.exists_cons_of_ne_nil hne
    simp only [List.cons_append, hbt, trimOneTrailingSlash]
    rw [← hbt, ih r hr]

theorem leadingSlashes_replicate_cons (k : Nat) (c : Char) (hc : c ≠ '/') :
    ∀ t, leadingSlashes (List.replicate k '/' ++ c :: t) = k := by
  induction k with
  | zero => intro t; simp [leadingSlashes, hc]
  | succ k ih =>
    intro t
    simp [List.replicate_succ, List.cons_append, leadingSlashes, ih t]

theorem trailingSlashes_decomp (w : List Char) (c : Char) (hc : c ≠ '/')
    (k : Nat) :
    trailingSlashes ((w ++ [c]) ++ List.replicate k '/') = k := by
  rw [trailingSlashes, List.reverse_append, List.reverse_append,
    List.reverse_replicate, List.reverse_singleton, List.singleton_append]
  exact leadingSlashes_replicate_cons k c hc w.reverse

theorem exists_trailing_decomp (s : List Char) (hs : ∃ c ∈ s, c ≠ '/') :
    ∃ u2 c k, s = (u2 ++ [c]) ++ List.replicate k '/' ∧ c ≠ '/' ∧
      trailingSlashes s = k := by
  induction s using List.reverseRecOn with
  | nil => simp at hs
  | append_singleton l a ih =>
    by_cases ha : a = '/'
    · subst ha
      have hl : ∃ c ∈ l, c ≠ '/' := by
        obtain ⟨c, hmem, hc⟩ := hs
        rcases List.mem_append.mp hmem with h | h
        · exact ⟨c, h, hc⟩
        · simp at h
          exact absurd h hc
      obtain ⟨u2, c, k, hdec, hc, _⟩ := ih hl
      have hgoal : l ++ ['/'] = (u2 ++ [c]) ++ List.replicate (k + 1) '/' := by
        rw [hdec, List.append_assoc, ← List.replicate_succ']
      refine ⟨u2, c, k + 1, hgoal, hc, ?_⟩
      rw [hgoal]
      exact trailingSlashes_decomp u2 c hc (k + 1)
    · refine ⟨l, a, 0, by simp, ha, ?_⟩
      have := trailingSlashes_decomp l a ha 0
      simpa using this

theorem trimOneTrailingSlash_concat_slash (l : List Char) :
    trimOneTrailingSlash (l ++ ['/']) = l := by
  rw [trimOneTrailingSlash_concat]
  simp

theorem split_last_slash (w : List Char) (k : Nat) (hk : 1 ≤ k) :
    w ++ List.replicate k '/' = (w ++ List.replicate (k - 1) '/') ++ ['/'] := by
  have hk1 : k - 1 + 1 = k := by omega
  calc w ++ List.replicate k '/'
      = w ++ List.replicate (k - 1 + 1) '/' := by rw [hk1]
    _ = w ++ (List.replicate (k - 1) '/' ++ ['/']) := by rw [List.replicate_succ']
    _ = (w ++ List.replicate (k - 1) '/') ++ ['/'] := by rw [List.append_assoc]

theorem httpScheme_append_ne_http (s : List Char) (hs : s ≠ []) :
    httpScheme ++ s ≠ httpScheme := by
  intro h
  have hlen := congrArg List.length h
  simp only [List.length_append] at hlen
  have : s.length = 0 := by omega
  exact hs (List.length_eq_zero.mp this)

theorem httpScheme_append_ne_https (s : List Char) :
    httpScheme ++ s ≠ httpsScheme := by
  intro h
  have h4 := congrArg (fun l => l.get? 4) h
  simp [httpScheme, httpsScheme] at h4

/-- C10 counterexample: the inputs "", "http://", "https://" and "/" refute
the claim. The first three yield a stored baseURL ("http:/" or "https:/")
that begins with neither http:// nor https://, and the input "/", which
ends in exactly one slash, yields "http://", which ends in two slashes
rather than zero. -/
theorem newBaseURL_cex :
    newBaseURL [] = ['h', 't', 't', 'p', ':', '/'] ∧
    beginsWith httpScheme (newBaseURL []) = false ∧
    beginsWith httpsScheme (newBaseURL []) = false ∧
    newBaseURL httpScheme = ['h', 't', 't', 'p', ':', '/'] ∧
    newBaseURL httpsScheme = ['h', 't', 't', 'p', 's', ':', '/'] ∧
    beginsWith httpScheme (newBaseURL httpsScheme) = false ∧
    beginsWith httpsScheme (newBaseURL httpsScheme) = false ∧
    trailingSlashes ['/'] = 1 ∧
    newBaseURL ['/'] = httpScheme ∧
    trailingSlashes (newBaseURL ['/']) = 2 := by
  decide

/-- C10 as amended: for every base-URL string other than "", "http://",
"https://" and the strings made of slashes only, the stored baseURL begins
with http:// or https:// (the prefix http:// being added when neither is
present), and an input ending in k ≥ 1 slashes keeps exactly k−1 of them
(none being removed when the input does not end in a slash). -/
theorem newBaseURL_amended (s : List Char)
    (h0 : s ≠ []) (h1 : s ≠ httpScheme) (h2 : s ≠ httpsScheme)
    (h3 : ∃ c ∈ s, c ≠ '/') :
    (beginsWith httpScheme (newBaseURL s) = true ∨
      beginsWith httpsScheme (newBaseURL s) = true) ∧
    (beginsWith httpScheme s = false → beginsWith httpsScheme s = false →
      newBaseURL s = trimOneTrailingSlash (httpScheme ++ s)) ∧
    (1 ≤ trailingSlashes s →
      trailingSlashes (newBaseURL s) = trailingSlashes s - 1) ∧
    (trailingSlashes s = 0 →
      newBaseURL s =
        (if beginsWith httpScheme s || beginsWith httpsScheme s then s
         else httpScheme ++ s)) := by
  obtain ⟨u2, c, k, hdec, hc, htk⟩ := exists_trailing_decomp s h3
  by_cases hb : (beginsWith httpScheme s || beginsWith httpsScheme s) = true
  · have hstep : newBaseURL s = trimOneTrailingSlash s := by
      simp [newBaseURL, hb]
    refine ⟨?_, ?_, ?_, ?_⟩
    · rcases Bool.or_eq_true_iff.mp hb with hp | hp
      · obtain ⟨t, ht⟩ := beginsWith_exists httpScheme s hp
        have htne : t ≠ [] := by
          intro h
          rw [h, List.append_nil] at ht
          exact h1 ht
        rw [hstep, ht, trimOneTrailingSlash_append httpScheme t htne]
        exact Or.inl (beginsWith_append httpScheme _)
      · obtain ⟨t, ht⟩ := beginsWith_exists httpsScheme s hp
        have htne : t ≠ [] := by
          intro h
          rw [h, List.append_nil] at ht
          exact h2 ht
        rw [hstep, ht, trimOneTrailingSlash_append httpsScheme t htne]
        exact Or.inr (beginsWith_append httpsScheme _)
    · intro hf1 hf2
      rw [hf1, hf2] at hb
      simp at hb
    · intro hk
      rw [htk] at hk
      have hsplit : s =
          ((u2 ++ [c]) ++ List.replicate (k - 1) '/') ++ ['/'] := by
        rw [hdec]
        exact split_last_slash (u2 ++ [c]) k hk
      rw [htk, hstep, hsplit, trimOneTrailingSlash_concat_slash]
      exact trailingSlashes_decomp u2 c hc (k - 1)
    · intro hk
      rw [htk] at hk
      subst hk
      have hw0 : s = u2 ++ [c] := by simpa using hdec
      calc newBaseURL s = trimOneTrailingSlash s := hstep
        _ = s := by rw [hw0, trimOneTrailingSlash_concat c u2, if_neg hc]
        _ = (if beginsWith httpScheme s || beginsWith httpsScheme s then s
             else httpScheme ++ s) := by simp [hb]
  · have hbf : (beginsWith httpScheme s || beginsWith httpsScheme s) = false :=
      Bool.not_eq_true _ ▸ (Bool.eq_false_iff.mpr hb)
    have hstep : newBaseURL s = trimOneTrailingSlash (httpScheme ++ s) := by
      simp [newBaseURL, hbf]
    have hw : httpScheme ++ s =
        ((httpScheme ++ u2) ++ [c]) ++ List.replicate k '/' := by
      rw [hdec]
      simp [List.append_assoc]
    refine ⟨?_, fun _ _ => hstep, ?_, ?_⟩
    · rw [hstep, trimOneTrailingSlash_append httpScheme s h0]
      exact Or.inl (beginsWith_append httpScheme _)
    · intro hk
      rw [htk] at hk
      have hsplit : httpScheme ++ s =
          (((httpScheme ++ u2) ++ [c]) ++ List.replicate (k - 1) '/') ++ ['/'] := by
        rw [hw]
        exact split_last_slash ((httpScheme ++ u2) ++ [c]) k hk
      rw [htk, hstep, hsplit, trimOneTrailingSlash_concat_slash]
      exact trailingSlashes_decomp (httpScheme ++ u2) c hc (k - 1)
    · intro hk
      rw [htk] at hk
      subst hk
      have hw0 : httpScheme ++ s = (httpScheme ++ u2) ++ [c] := by
        simpa using hw
      calc newBaseURL s = trimOneTrailingSlash (httpScheme ++ s) := hstep
        _ = httpScheme ++ s := by
            rw [hw0, trimOneTrailingSlash_concat c _, if_neg hc]
        _ = (if beginsWith httpScheme s || beginsWith httpsScheme s then s
             else httpScheme ++ s) := by simp [hbf]

/-- Witness for the amended C10: the input "a///" (no scheme, three trailing
slashes) becomes "http://a//". -/
theorem newBaseURL_amended_witness :
    (beginsWith httpScheme (newBaseURL ['a', '/', '/', '/']) = true ∨
      beginsWith httpsScheme (newBaseURL ['a', '/', '/', '/']) = true) ∧
    (beginsWith httpScheme ['a', '/', '/', '/'] = false →
      beginsWith httpsScheme ['a', '/', '/', '/'] = false →
      newBaseURL ['a', '/', '/', '/'] =
        trimOneTrailingSlash (httpScheme ++ ['a', '/', '/', '/'])) ∧
    (1 ≤ trailingSlashes ['a', '/', '/', '/'] →
      trailingSlashes (newBaseURL ['a', '/', '/', '/']) =
        trailingSlashes ['a', '/', '/', '/'] - 1) ∧
    (trailingSlashes ['a', '/', '/', '/'] = 0 →
      newBaseURL ['a', '/', '/', '/'] =
        (if beginsWith httpScheme ['a', '/', '/', '/'] ||
            beginsWith httpsScheme ['a', '/', '/', '/']
         then ['a', '/', '/', '/']
         else httpScheme ++ ['a', '/', '/', '/'])) :=
  newBaseURL_amended ['a', '/', '/', '/'] (by decide) (by decide) (by decide)
    (by decide)

end ChainTracks
